import Mathlib

/-!
A verification development for the hash router in `src/router.ts`.

Modelling conventions:
* JS strings are modelled as lists of characters (`Str`).
* The external pattern library (`path-to-regexp`) is modelled abstractly: a
  compiled pattern is a `Matcher` carrying a `test` predicate and an `exec`
  capture extractor; `pathToRegexp` itself is a parameter of `use`
  (`Str → Option (List Str × Matcher)`, `none` modelling a thrown
  compilation error), and the reverse compiler `compile` is a parameter of
  the guard semantics (`Str → Params → Str`).
* A JS value that is a string-or-`undefined` is `Option Str`
  (`none` = `undefined`); the parameter object is an insertion-ordered
  association list, with JS property assignment modelled by `setParam`
  (update in place if the key exists, append otherwise).
* The handlers collected by `find` are tagged: `GHandler.guard b` is the
  guard closure synthesized for a route whose stored base is `b`, and
  `GHandler.user h` is a handler that was passed to `use`.
-/

/-- A JS string, modelled as its list of characters. -/
abbrev Str : Type := List Char

/-- The parameter object built by `find`: an insertion-ordered association
list from key to captured value (`none` models `undefined`). -/
abbrev Params : Type := List (Str × Option Str)

/-- Abstract model of a compiled `path-to-regexp` pattern (a `RegExp`):
`test` is `pattern.test(url)`, and `exec` is `pattern.exec(url)`, returning
`none` for a `null` result and otherwise the match array
(`matches[0]` the full match, `matches[i+1]` the `i`-th capture group,
with `none` entries for non-participating groups; reading past the end of
the array also yields `undefined`, see `routeWrites`). -/
structure Matcher where
  test : Str → Bool
  exec : Str → Option (List (Option Str))

/-- One entry of `this._routes` (router.ts lines 15-20): the key names
collected by `pathToRegexp`, the compiled pattern, the handlers passed to
`use`, and the stored `base` prefix. -/
structure Route (H : Type) where
  keys : List Str
  pattern : Matcher
  handlers : List H
  base : Str

/-- The private state of a router instance: `_base`, `_lastPath` and
`_routes` (router.ts lines 13-20). -/
structure RouterState (H : Type) where
  base : Str
  lastPath : Option Str
  routes : List (Route H)

/-- An element of the handler array assembled by `find`: either the guard
closure synthesized for a matching route (identified by the route `base`
it captured), or one of the route's own handlers. -/
inductive GHandler (H : Type) where
  | guard (base : Str)
  | user (h : H)
deriving DecidableEq

/-- The object returned by `find` (router.ts line 114). -/
structure FindResult (H : Type) where
  params : Params
  handlers : List (GHandler H)
deriving DecidableEq

/-- The string `"/"`. -/
def slashC : Str := ['/']

/-- The string `"(.*)"`, the catch-all wildcard marker used on
router.ts line 52. -/
def ccMarker : Str := ['(', '.', '*', ')']

/-- The string `"#/"`, the hash prefix replaced on router.ts line 127. -/
def hashSlash : Str := ['#', '/']

/-- JS property assignment `ps[k] = v` on a plain object: if the key is
already present its value is updated in place (property order kept),
otherwise the new property is appended. -/
def setParam (ps : Params) (k : Str) (v : Option Str) : Params :=
  match ps with
  | [] => [(k, v)]
  | p :: rest => if p.1 = k then (k, v) :: rest else p :: setParam rest k v

/-- JS property read `ps[k]`: `none` when the key is absent,
`some v` when the key is present with value `v`. -/
def lookupP (ps : Params) (k : Str) : Option (Option Str) :=
  match ps with
  | [] => none
  | p :: rest => if p.1 = k then some p.2 else lookupP rest k

/-- The last value written for key `k` in a chronological write list
(`none` when `k` is never written). -/
def lastWrite (ws : Params) (k : Str) : Option (Option Str) :=
  lookupP ws.reverse k

/-- Perform a list of property assignments in order. -/
def applyWrites (ps : Params) (ws : Params) : Params :=
  ws.foldl (fun a kv => setParam a kv.1 kv.2) ps

/-- The parameter writes one matching route performs (router.ts
lines 101-108): when the route has keys and `exec` succeeds, each key
`keys[i]` (in key order) is assigned `matches[i + 1]`; the JS read
`matches[i + 1]` yields `undefined` both past the end of the array and
for a non-participating group, hence the `Option.join`. -/
def routeWrites {H : Type} (url : Str) (r : Route H) : Params :=
  if r.keys.length ≠ 0 then
    match r.pattern.exec url with
    | some ms => r.keys.enum.map (fun ik => (ik.2, (ms.get? (ik.1 + 1)).join))
    | none => []
  else []

/-- The body of the `forEach` in `find` (router.ts lines 83-112) acting on
the `(params, handlers)` accumulator: skip the route if `test` fails;
otherwise push the synthesized guard, perform the key writes, and append
the route's own handlers. -/
def stepRoute {H : Type} (url : Str) (acc : Params × List (GHandler H)) (r : Route H) :
    Params × List (GHandler H) :=
  if r.pattern.test url then
    let hs1 := acc.2 ++ [GHandler.guard r.base]
    let ps1 := applyWrites acc.1 (routeWrites url r)
    (ps1, hs1 ++ r.handlers.map GHandler.user)
  else acc

/-- `find` (router.ts lines 79-115): fold the `forEach` body over the
route table, starting from a fresh empty parameter object and an empty
handler array. -/
def find {H : Type} (routes : List (Route H)) (url : Str) : FindResult H :=
  let r := routes.foldl (stepRoute url) (([], []) : Params × List (GHandler H))
  ⟨r.1, r.2⟩

/-- `find` as a method on the router state: the `forEach` body is threaded
through the instance state statement by statement; no statement of `find`
writes any field of `this` (creating the guard closures does not run
them), which the threading makes explicit. -/
def findS {H : Type} (s : RouterState H) (url : Str) : RouterState H × FindResult H :=
  let r := s.routes.foldl (fun acc route => (acc.1, stepRoute url acc.2 route))
    ((s, (([], []) : Params × List (GHandler H))))
  (r.1, ⟨r.2.1, r.2.2⟩)

/-- The synthesized guard closure (router.ts lines 88-98) as a pure
transformer of the `_lastPath` field. `rv` models the external
`compile` reverse function, `b` is the captured route `base`, `ctx` and
`hasNext` describe the arguments of the invocation (`none`/`false` for a
missing `ctx`/`next`). The result is the new `_lastPath` together with
the number of times `next` was invoked. -/
def guardRun (rv : Str → Params → Str) (b : Str) (ctx : Option Params) (hasNext : Bool)
    (lastPath : Option Str) : Option Str × Nat :=
  match ctx, hasNext with
  | none, _ => (lastPath, 0)
  | some _, false => (lastPath, 0)
  | some ps, true =>
    let path := rv b ps
    if lastPath ≠ some path then (some path, 1) else (lastPath, 0)

/-- `fullPath` as computed on router.ts line 51:
`this._base === "/" ? path : this._base + path`. -/
def jsFullPath (b : Str) (path : Str) : Str :=
  if b = slashC then path else b ++ path

/-- JS `s.split(pat)[0]` for a non-empty separator `pat`: the prefix of
`s` up to (not including) the first occurrence of `pat`, the whole of `s`
when `pat` does not occur (router.ts line 52). -/
def splitHead (pat : Str) : Str → Str
  | [] => []
  | c :: cs => if pat.isPrefixOf (c :: cs) then [] else c :: splitHead pat cs

/-- `use` (router.ts lines 48-64): compute `fullPath` and the route
`base`, try to compile `fullPath`; on success append the new route, on a
compilation error (`ptr _ = none`, the thrown-and-caught case) log and
leave the table unchanged. The JS method returns `this`; here the
(possibly unchanged) state is returned. -/
def use {H : Type} (ptr : Str → Option (List Str × Matcher)) (s : RouterState H)
    (path : Str) (handlers : List H) : RouterState H :=
  let fullPath := jsFullPath s.base path
  let rbase := splitHead ccMarker fullPath
  match ptr fullPath with
  | some km => { s with routes := s.routes ++ [⟨km.1, km.2, handlers, rbase⟩] }
  | none => s

/-- JS `s.replace(pat, rep)` for string arguments: replaces only the
first (leftmost) occurrence of `pat`, and returns `s` unchanged when
`pat` does not occur. -/
def replaceFirst (pat rep : Str) : Str → Str
  | [] => []
  | c :: cs =>
    if pat.isPrefixOf (c :: cs) then rep ++ List.drop pat.length (c :: cs)
    else c :: replaceFirst pat rep cs

/-- The url `handleRoutes` passes to `find` (router.ts lines 127-128):
`location.hash.replace("#/", "/") || "/"` — the first occurrence of
`"#/"` replaced by `"/"`, defaulting to `"/"` when the result is the
empty string. -/
def hashToUrl (hash : Str) : Str :=
  let r := replaceFirst hashSlash slashC hash
  if r = [] then slashC else r

/-- Modelled from the spec: the hash normalization as the spec words it —
"the hash with a leading hash-prefix stripped, defaulting to root if
empty" (the leading `#` removed when present). Used only to compare the
spec's description with `hashToUrl`. -/
def specHashUrl (hash : Str) : Str :=
  let s :=
    match hash with
    | '#' :: rest => rest
    | other => other
  if s = [] then slashC else s

/-- How one dispatch of the execution loop ends. -/
inductive ChainOutcome where
  | halted (cursor : Nat)
  | typeError (cursor : Nat)
deriving DecidableEq

/-- The execution loop of `handleRoutes` (router.ts lines 132-135):
`route.handlers[next++]({params}, handler)`. The element at the cursor is
fetched with no bounds check; a missing element (`undefined`) is then
invoked, which is a `TypeError`. `cn a` abstracts whether handler `a`,
when invoked, calls its `next` continuation. -/
def runChain {α : Type} (hs : List α) (cn : α → Bool) (cursor : Nat) : ChainOutcome :=
  match h : hs.get? cursor with
  | none => ChainOutcome.typeError cursor
  | some a =>
    if cn a then runChain hs cn (cursor + 1) else ChainOutcome.halted (cursor + 1)
termination_by hs.length - cursor
decreasing_by
  obtain ⟨hlt, -⟩ := List.get?_eq_some.mp h
  omega

/-- The dispatch step of `handleRoutes` (router.ts lines 130-135): an
empty resolved handler array is a no-op (`none`); otherwise the chain is
started at cursor `0`. -/
def dispatchOutcome {α : Type} (hs : List α) (cn : α → Bool) : Option ChainOutcome :=
  if hs.length = 0 then none else some (runChain hs cn 0)

/-- A matcher accepting every url and capturing nothing; used in concrete
instantiations. -/
def mW : Matcher := ⟨fun _ => true, fun _ => none⟩

/-- A pattern compiler that fails on every template (models
`pathToRegexp` throwing). -/
def ptrNone : Str → Option (List Str × Matcher) := fun _ => none

/-- A pattern compiler that succeeds on every template with no keys and
the always-true matcher. -/
def ptrW : Str → Option (List Str × Matcher) := fun _ => some ([], mW)

/-- A route that matches no url. -/
def routeW : Route Nat := ⟨[], ⟨fun _ => false, fun _ => none⟩, [3], []⟩

/-! ## Lemmas about the parameter object -/

theorem lookupP_setParam (ps : Params) (k' : Str) (v' : Option Str) (k : Str) :
    lookupP (setParam ps k' v') k = if k' = k then some v' else lookupP ps k := by
  induction ps with
  | nil => by_cases h : k' = k <;> simp [setParam, lookupP, h]
  | cons p rest ih =>
    obtain ⟨a, b⟩ := p
    by_cases hp : a = k'
    · subst hp
      by_cases h : a = k <;> simp [setParam, lookupP, h]
    · by_cases h : k' = k
      · subst h
        simp [setParam, lookupP, hp, ih, Ne.symm hp]
      · simp [setParam, lookupP, hp, ih, h]

theorem applyWrites_append (ps w1 w2 : Params) :
    applyWrites ps (w1 ++ w2) = applyWrites (applyWrites ps w1) w2 := by
  simp [applyWrites, List.foldl_append]

theorem lookupP_applyWrites (ws ps : Params) (k : Str) :
    lookupP (applyWrites ps ws) k = (lastWrite ws k).elim (lookupP ps k) some := by
  induction ws using List.reverseRecOn with
  | nil => simp [applyWrites, lastWrite, lookupP]
  | append_singleton ws w ih =>
    obtain ⟨a, b⟩ := w
    rw [applyWrites_append]
    have hstep : applyWrites (applyWrites ps ws) [(a, b)] = setParam (applyWrites ps ws) a b := rfl
    rw [hstep, lookupP_setParam]
    have hlast : lastWrite (ws ++ [(a, b)]) k = if a = k then some b else lastWrite ws k := by
      simp [lastWrite, List.reverse_append, lookupP]
    rw [hlast]
    by_cases h : a = k
    · simp [h]
    · simp [h, ih]

/-! ## The fold of `find` in closed form -/

theorem foldl_stepRoute {H : Type} (url : Str) (routes : List (Route H)) :
    ∀ (p0 : Params) (h0 : List (GHandler H)),
    routes.foldl (stepRoute url) (p0, h0)
      = (applyWrites p0 ((routes.filter (fun r => r.pattern.test url)).flatMap (routeWrites url)),
         h0 ++ (routes.filter (fun r => r.pattern.test url)).flatMap
           (fun r => GHandler.guard r.base :: r.handlers.map GHandler.user)) := by
  induction routes with
  | nil => intro p0 h0; simp [applyWrites]
  | cons r rs ih =>
    intro p0 h0
    by_cases hr : r.pattern.test url = true
    · simp only [List.foldl_cons, stepRoute, hr, if_pos, List.filter_cons, List.flatMap_cons, ih,
        applyWrites_append]
      simp
    · simp only [List.foldl_cons, stepRoute, hr, if_neg, List.filter_cons, ih]
      simp [hr]

/-! ## Claim theorems: the resolver -/

/-- C1: for every url and route table, `find(url).handlers` is exactly the
concatenation, over the matching routes in table order, of one synthesized
guard handler immediately followed by that route's own handlers in the
order they were passed to `use`; non-matching routes contribute nothing
and every route is scanned (the characterization covers the whole table,
with no early termination). -/
theorem find_handlers_guard_chain {H : Type} (routes : List (Route H)) (url : Str) :
    (find routes url).handlers
      = (routes.filter (fun r => r.pattern.test url)).flatMap
          (fun r => GHandler.guard r.base :: r.handlers.map GHandler.user) := by
  simp [find, foldl_stepRoute]

/-- C2: a synthesized guard handler invoked with a context and a `next`
continuation compiles the route base with the context parameters; if the
resulting concrete path differs from the stored last-resolved-path it
overwrites it and invokes `next` exactly once, and if it is identical it
invokes nothing and leaves the stored path unchanged. -/
theorem guard_spec (rv : Str → Params → Str) (b : Str) (ps : Params) (lp : Option Str) :
    guardRun rv b (some ps) true lp
      = if lp = some (rv b ps) then (lp, 0) else (some (rv b ps), 1) := by
  by_cases h : lp = some (rv b ps) <;> simp [guardRun, h]

/-- C3: for a context resolving to a concrete path different from the
stored last-resolved-path, the first guard invocation invokes `next`
(once) and stores that path, and a second invocation from the updated
state invokes `next` zero times. -/
theorem guard_twice (rv : Str → Params → Str) (b : Str) (ps : Params) (l0 : Option Str)
    (h : l0 ≠ some (rv b ps)) :
    guardRun rv b (some ps) true l0 = (some (rv b ps), 1)
    ∧ guardRun rv b (some ps) true (some (rv b ps)) = (some (rv b ps), 0) := by
  constructor
  · simp [guardRun, h]
  · simp [guardRun]

/-- Witness for C3 at a concrete reverse compiler, base, context and
initial last-resolved-path. -/
theorem guard_twice_witness :
    guardRun (fun b _ => b) ['/', 'x'] (some []) true none = (some ['/', 'x'], 1)
    ∧ guardRun (fun b _ => b) ['/', 'x'] (some []) true (some ['/', 'x'])
        = (some ['/', 'x'], 0) :=
  guard_twice (fun b _ => b) ['/', 'x'] [] none (by simp)

/-- C4: reading key `k` from `find(url).params` returns exactly the last
write to `k` in the chronological write list of the matching routes
(each matching route with keys contributing, in key order, the capture
values `exec` extracts from the url) — later routes overwrite earlier
ones for identically named keys. -/
theorem find_params_lastWrite {H : Type} (routes : List (Route H)) (url : Str) (k : Str) :
    lookupP (find routes url).params k
      = lastWrite ((routes.filter (fun r => r.pattern.test url)).flatMap (routeWrites url)) k := by
  simp only [find, foldl_stepRoute]
  rw [lookupP_applyWrites]
  cases lastWrite ((routes.filter (fun r => r.pattern.test url)).flatMap (routeWrites url)) k <;>
    simp [lookupP]

/-- C6: when no registered route's matcher accepts the url, `find` returns
exactly the object with an empty parameter map and an empty handler
array (never an absent result — `find` is total). -/
theorem find_no_match {H : Type} (routes : List (Route H)) (url : Str)
    (h : ∀ r ∈ routes, r.pattern.test url = false) :
    find routes url = ⟨[], []⟩ := by
  have hf : routes.filter (fun r => r.pattern.test url) = [] := by
    rw [List.filter_eq_nil_iff]
    intro r hr
    simp [h r hr]
  simp [find, foldl_stepRoute, hf, applyWrites]

/-- Witness for C6: a one-route table whose matcher rejects the url. -/
theorem find_no_match_witness : find [routeW] ['/', 'a'] = ⟨[], []⟩ :=
  find_no_match [routeW] ['/', 'a']
    (by intro r hr; simp only [List.mem_singleton] at hr; subst hr; rfl)

/-! ## Claim theorems: registration -/

/-- C5: a `use` call whose template fails to compile appends no route and
leaves the router state exactly as it was (so routes registered before or
after behave as if the call had never happened); `use` is total — the
failure never propagates — and returns the (unchanged) router. -/
theorem use_invalid {H : Type} (ptr : Str → Option (List Str × Matcher)) (s : RouterState H)
    (path : Str) (hs : List H) (h : ptr (jsFullPath s.base path) = none) :
    use ptr s path hs = s := by
  simp [use, h]

/-- Witness for C5: registering against an always-failing compiler leaves
the state unchanged. -/
theorem use_invalid_witness :
    use ptrNone (⟨slashC, none, []⟩ : RouterState Nat) ['[', 'x'] [1] = ⟨slashC, none, []⟩ :=
  use_invalid ptrNone _ _ _ rfl

/-! ## Claim theorems: state framing -/

theorem foldl_fst_const {H : Type} (url : Str) (l : List (Route H)) :
    ∀ (s0 : RouterState H) (acc : Params × List (GHandler H)),
    l.foldl (fun a route => (a.1, stepRoute url a.2 route)) (s0, acc)
      = (s0, l.foldl (stepRoute url) acc) := by
  induction l with
  | nil => intro s0 acc; rfl
  | cons r rs ih => intro s0 acc; simp [List.foldl_cons, ih]

/-- C9: a `find` call leaves the router state (route table, base prefix,
last-resolved-path) unchanged and returns the resolution computed from
the route table alone; the last-resolved-path is written only by an
executed guard handler, and only when that execution invokes `next`. -/
theorem find_frame {H : Type} (s : RouterState H) (url : Str) :
    (findS s url).1 = s
    ∧ (findS s url).2 = find s.routes url
    ∧ ∀ (rv : Str → Params → Str) (b : Str) (ctx : Option Params) (hn : Bool)
        (lp : Option Str),
        (guardRun rv b ctx hn lp).1 = lp ∨ (guardRun rv b ctx hn lp).2 = 1 := by
  refine ⟨?_, ?_, ?_⟩
  · simp [findS, foldl_fst_const]
  · simp [findS, find, foldl_fst_const]
  · intro rv b ctx hn lp
    match ctx, hn with
    | none, _ => exact Or.inl rfl
    | some ps, false => exact Or.inl rfl
    | some ps, true =>
      by_cases h : lp = some (rv b ps)
      · exact Or.inl (by simp [guardRun, h])
      · exact Or.inr (by simp [guardRun, h])

/-! ## Claim theorems: the execution loop -/

theorem runChain_overrun {α : Type} (hs : List α) (cn : α → Bool)
    (hall : ∀ a ∈ hs, cn a = true) :
    ∀ n cursor, hs.length - cursor = n → cursor ≤ hs.length →
      runChain hs cn cursor = ChainOutcome.typeError hs.length := by
  intro n
  induction n with
  | zero =>
    intro cursor hsub hle
    have hc : cursor = hs.length := by omega
    have hnone : hs.get? cursor = none := List.get?_eq_none.mpr (by omega)
    unfold runChain
    split
    · rw [hc]
    · rename_i a ha
      rw [hnone] at ha
      cases ha
  | succ m ih =>
    intro cursor hsub hle
    have hc : cursor < hs.length := by omega
    unfold runChain
    split
    · rename_i hnone
      rw [List.get?_eq_none] at hnone
      omega
    · rename_i a ha
      have hmem : a ∈ hs := List.get?_mem ha
      simp only [hall a hmem, if_true]
      exact ih (cursor + 1) (by omega) (by omega)

/-- C10: the dispatcher's loop has no synthetic terminal step and no
bounds check: with a non-empty resolved handler array in which every
handler invokes its `next` continuation, the chain ends by attempting to
invoke the missing element at index `n` (the array length) — a
`TypeError`, never a clean run off the end. -/
theorem dispatch_overrun {α : Type} (hs : List α) (cn : α → Bool) (hne : hs ≠ [])
    (hall : ∀ a ∈ hs, cn a = true) :
    dispatchOutcome hs cn = some (ChainOutcome.typeError hs.length) := by
  have hlen : hs.length ≠ 0 := by simpa using hne
  simp only [dispatchOutcome, hlen, if_neg, ite_false]
  exact congrArg some (runChain_overrun hs cn hall hs.length 0 (by omega) (by omega))

/-- Witness for C10: a one-handler chain whose handler always calls
`next` ends in a `TypeError` at index 1. -/
theorem dispatch_overrun_witness :
    dispatchOutcome [7] (fun _ => true) = some (ChainOutcome.typeError 1) :=
  dispatch_overrun [7] (fun _ => true) (by decide) (by intro a ha; rfl)

/-! ## First-occurrence lemmas for `splitHead` and `replaceFirst` -/

theorem infix_cons_lift {α : Type} (a : α) (p l : List α) (h : p <:+: l) : p <:+: a :: l := by
  obtain ⟨s, t, hst⟩ := h
  exact ⟨a :: s, t, by simp [hst]⟩

theorem infix_of_pref {α : Type} (p l : List α) (h : p <+: l) : p <:+: l := by
  obtain ⟨t, ht⟩ := h
  exact ⟨[], t, by simp [ht]⟩

theorem splitHead_of_not_infix (pat : Str) (l : Str) (h : ¬ pat <:+: l) :
    splitHead pat l = l := by
  induction l with
  | nil => rfl
  | cons c cs ih =>
    have hp : ¬ pat <+: c :: cs := fun hpre => h (infix_of_pref _ _ hpre)
    have hcs : ¬ pat <:+: cs := fun hin => h (infix_cons_lift c pat cs hin)
    simp [splitHead, List.isPrefixOf_iff_prefix, hp, ih hcs]

theorem splitHead_min (pat : Str) (rest : Str) :
    ∀ pre : Str, splitHead pat (pre ++ (pat ++ rest)) <+: pre := by
  intro pre
  induction pre with
  | nil =>
    rw [List.nil_append]
    cases hpat : pat ++ rest with
    | nil => exact ⟨[], rfl⟩
    | cons c cs =>
      have hp : pat <+: c :: cs := hpat ▸ (⟨rest, rfl⟩ : pat <+: pat ++ rest)
      simp [splitHead, List.isPrefixOf_iff_prefix, hp]
  | cons c pre' ih =>
    by_cases hp : pat <+: (c :: pre') ++ (pat ++ rest)
    · have hsh : splitHead pat ((c :: pre') ++ (pat ++ rest)) = [] := by
        simp [List.cons_append, splitHead, List.isPrefixOf_iff_prefix,
          (List.cons_append c pre' (pat ++ rest)) ▸ hp]
      rw [hsh]
      exact ⟨c :: pre', rfl⟩
    · have hp' : ¬ pat <+: c :: (pre' ++ (pat ++ rest)) := by
        rw [← List.cons_append]; exact hp
      have hsh : splitHead pat ((c :: pre') ++ (pat ++ rest))
          = c :: splitHead pat (pre' ++ (pat ++ rest)) := by
        simp [List.cons_append, splitHead, List.isPrefixOf_iff_prefix, hp']
      rw [hsh]
      obtain ⟨t, ht⟩ := ih
      exact ⟨t, by simp [ht]⟩

theorem splitHead_decomp (pat : Str) (rest : Str) :
    ∀ pre : Str, ∃ r2 : Str,
      pre ++ (pat ++ rest) = splitHead pat (pre ++ (pat ++ rest)) ++ (pat ++ r2) := by
  intro pre
  induction pre with
  | nil =>
    refine ⟨rest, ?_⟩
    rw [List.nil_append]
    cases hpat : pat ++ rest with
    | nil => simp [splitHead]
    | cons c cs =>
      have hp : pat <+: c :: cs := hpat ▸ (⟨rest, rfl⟩ : pat <+: pat ++ rest)
      have hsh : splitHead pat (c :: cs) = [] := by
        simp [splitHead, List.isPrefixOf_iff_prefix, hp]
      rw [hsh, List.nil_append]
  | cons c pre' ih =>
    by_cases hp : pat <+: (c :: pre') ++ (pat ++ rest)
    · have hsh : splitHead pat ((c :: pre') ++ (pat ++ rest)) = [] := by
        simp [List.cons_append, splitHead, List.isPrefixOf_iff_prefix,
          (List.cons_append c pre' (pat ++ rest)) ▸ hp]
      obtain ⟨t, ht⟩ := hp
      refine ⟨t, ?_⟩
      rw [hsh, List.nil_append]
      exact ht.symm
    · have hp' : ¬ pat <+: c :: (pre' ++ (pat ++ rest)) := by
        rw [← List.cons_append]; exact hp
      have hsh : splitHead pat ((c :: pre') ++ (pat ++ rest))
          = c :: splitHead pat (pre' ++ (pat ++ rest)) := by
        simp [List.cons_append, splitHead, List.isPrefixOf_iff_prefix, hp']
      obtain ⟨r2, h2⟩ := ih
      refine ⟨r2, ?_⟩
      rw [hsh, List.cons_append, List.cons_append]
      exact congrArg (c :: ·) h2

/-- C8: `use` compiles `fullPath` (the template itself when the router
base is `"/"`, the base concatenated with the template otherwise) and
stores as the route `base` the prefix of `fullPath` up to (not including)
the first occurrence of the catch-all marker `"(.*)"` — the whole of
`fullPath` when the marker does not occur: `splitHead` is the shortest
prefix preceding an occurrence, and equals `fullPath` absent one. -/
theorem use_base_spec {H : Type} (ptr : Str → Option (List Str × Matcher)) (s : RouterState H)
    (path : Str) (hs : List H) (ks : List Str) (m : Matcher)
    (h : ptr (jsFullPath s.base path) = some (ks, m)) :
    use ptr s path hs
      = { s with routes := s.routes
            ++ [⟨ks, m, hs, splitHead ccMarker (jsFullPath s.base path)⟩] }
    ∧ (¬ ccMarker <:+: jsFullPath s.base path →
        splitHead ccMarker (jsFullPath s.base path) = jsFullPath s.base path)
    ∧ ∀ pre rest : Str, jsFullPath s.base path = pre ++ (ccMarker ++ rest) →
        splitHead ccMarker (jsFullPath s.base path) <+: pre
        ∧ ∃ r2 : Str, jsFullPath s.base path
            = splitHead ccMarker (jsFullPath s.base path) ++ (ccMarker ++ r2) := by
  refine ⟨?_, ?_, ?_⟩
  · simp [use, h]
  · intro hn
    exact splitHead_of_not_infix _ _ hn
  · intro pre rest hdec
    rw [hdec]
    exact ⟨splitHead_min ccMarker rest pre, splitHead_decomp ccMarker rest pre⟩

/-- Witness for C8: registering `"/b(.*)c"` on a base-`"/"` router stores
the route with base `"/b"`. -/
theorem use_base_spec_witness :
    use ptrW (⟨slashC, none, []⟩ : RouterState Nat) (['/', 'b'] ++ (ccMarker ++ ['c'])) [5]
      = ⟨slashC, none, [⟨[], mW, [5], ['/', 'b']⟩]⟩ := by
  have h := (use_base_spec ptrW (⟨slashC, none, []⟩ : RouterState Nat)
    (['/', 'b'] ++ (ccMarker ++ ['c'])) [5] [] mW rfl).1
  rw [h]
  rfl

/-! ## The hash normalization of `handleRoutes` -/

theorem replaceFirst_of_not_infix (pat rep : Str) (l : Str) (h : ¬ pat <:+: l) :
    replaceFirst pat rep l = l := by
  induction l with
  | nil => rfl
  | cons c cs ih =>
    have hp : ¬ pat <+: c :: cs := fun hpre => h (infix_of_pref _ _ hpre)
    have hcs : ¬ pat <:+: cs := fun hin => h (infix_cons_lift c pat cs hin)
    simp [replaceFirst, List.isPrefixOf_iff_prefix, hp, ih hcs]

theorem replaceFirst_hashSlash (rest : Str) :
    ∀ pre : Str, ¬ hashSlash <:+: pre →
      replaceFirst hashSlash slashC (pre ++ (hashSlash ++ rest)) = pre ++ (slashC ++ rest) := by
  intro pre
  induction pre with
  | nil =>
    intro _
    simp [hashSlash, slashC, replaceFirst, List.isPrefixOf]
  | cons c pre' ih =>
    intro h
    have hcs : ¬ hashSlash <:+: pre' := fun hin => h (infix_cons_lift c hashSlash pre' hin)
    have hp : ¬ hashSlash <+: (c :: pre') ++ (hashSlash ++ rest) := by
      intro hpre
      obtain ⟨t, ht⟩ := hpre
      cases pre' with
      | nil => simp [hashSlash] at ht
      | cons d pre'' =>
        simp only [hashSlash, List.cons_append, List.append_assoc, List.cons.injEq] at ht
        obtain ⟨h1, h2, -⟩ := ht
        exact h ⟨[], pre'', by simp [hashSlash, ← h1, ← h2]⟩
    have hp' : ¬ hashSlash <+: c :: (pre' ++ (hashSlash ++ rest)) := by
      rw [← List.cons_append]; exact hp
    have hstep : replaceFirst hashSlash slashC ((c :: pre') ++ (hashSlash ++ rest))
        = c :: replaceFirst hashSlash slashC (pre' ++ (hashSlash ++ rest)) := by
      simp [List.cons_append, replaceFirst, List.isPrefixOf_iff_prefix, hp']
    rw [hstep, ih hcs, List.cons_append]

/-- Counterexample for C7: the code replaces the first occurrence of
`"#/"` anywhere in the raw hash, it does not strip a leading hash
prefix. On the raw hash `"#a#/b"` the url passed to `find` is `"#a/b"`,
while the hash with its leading hash-prefix stripped is `"a#/b"`. -/
theorem hash_url_claim_false :
    hashToUrl ['#', 'a', '#', '/', 'b'] = ['#', 'a', '/', 'b']
    ∧ specHashUrl ['#', 'a', '#', '/', 'b'] = ['a', '#', '/', 'b']
    ∧ hashToUrl ['#', 'a', '#', '/', 'b'] ≠ specHashUrl ['#', 'a', '#', '/', 'b'] := by
  refine ⟨?_, ?_, ?_⟩ <;> decide

/-- C7 amended: the url `handleRoutes` passes to `find` is the raw hash
with the first occurrence of `"#/"` replaced by `"/"` (in particular a
leading `"#/"` becomes `"/"`; a hash without any `"#/"` is passed through
unchanged, its leading `"#"` not stripped), and is the root path `"/"`
when the result — equivalently the raw hash — is empty. -/
theorem hashToUrl_amended :
    hashToUrl [] = slashC
    ∧ (∀ h : Str, ¬ hashSlash <:+: h → h ≠ [] → hashToUrl h = h)
    ∧ (∀ pre rest : Str, ¬ hashSlash <:+: pre →
        hashToUrl (pre ++ (hashSlash ++ rest)) = pre ++ (slashC ++ rest)) := by
  refine ⟨rfl, ?_, ?_⟩
  · intro h hin hne
    simp [hashToUrl, replaceFirst_of_not_infix hashSlash slashC h hin, hne]
  · intro pre rest hin
    have hr := replaceFirst_hashSlash rest pre hin
    have hne : pre ++ (slashC ++ rest) ≠ [] := by simp [slashC]
    simp [hashToUrl, hr, hne]

/-- Witness for C7's amended statement: `"#a#/b"` maps to `"#a/b"`
(first-occurrence replacement) and `"#x"` is passed through unchanged. -/
theorem hashToUrl_amended_witness :
    hashToUrl (['#', 'a'] ++ (hashSlash ++ ['b'])) = ['#', 'a'] ++ (slashC ++ ['b'])
    ∧ hashToUrl ['#', 'x'] = ['#', 'x'] :=
  ⟨hashToUrl_amended.2.2 ['#', 'a'] ['b'] (by decide),
   hashToUrl_amended.2.1 ['#', 'x'] (by decide) (by decide)⟩
